import Mathlib

/-!
Shallow embedding of the segmentation-and-transcoding engine of
`main_windows.py` (class `WorkerThread`): segment planning, geometry
planning (`calculate_target_resolution`), command building, the
orchestration loop of `WorkerThread.run`, and the events it emits.

Modelling conventions:
* Python floats are modelled as exact rationals (`ℚ`).  All duration and
  percentage arithmetic of the source is straight-line `+ - * /`, floor
  division and `int()` truncation, which the rational model reproduces
  exactly except for sub-ulp rounding of the IEEE intermediate values.
* `int()` applied to a nonnegative value is `Int.floor`; the general
  truncation toward zero is `pyInt` below.
* The Qt signals `progress`, `segment_progress`, `error`, `finished` and
  each `subprocess.run` invocation are modelled as an ordered trace of
  `Event`s.  Progress strings are kept structured (`Msg`) together with a
  rendering function mirroring the f-strings of the source; numeric
  formatting (`:.1f`, `:02d`) is abstracted by `toString`.
* `os.path.join` is modelled with a fixed `/` separator.
-/

namespace VideoSplitter

/-- Python `int()` truncation toward zero on a rational. -/
def pyInt (q : ℚ) : ℤ := if q < 0 then ⌈q⌉ else ⌊q⌋

/-- Python `f"{i:03d}"`: decimal rendering zero-padded to width 3. -/
def pad3 (i : ℕ) : String :=
  let s := toString i
  String.mk (List.replicate (3 - s.length) '0') ++ s

/-- `os.path.join`, separator fixed. -/
def joinPath (dir file : String) : String := dir ++ "/" ++ file

/-- Rendering of an optional dimension inside an f-string: Python renders
`None` as `"None"` and an int by its decimal form. -/
def dimStr : Option ℤ → String
  | none => "None"
  | some z => toString z

/-- `EncodeMode`: the `self.mode` strings `"fast"` / `"precise"`. -/
inductive Mode
  | fast
  | precise
deriving DecidableEq, Repr

/-- One argument of an external-tool command line.  Literal strings are
kept verbatim; numeric arguments (`str(start_time)`, `str(duration)`)
keep their rational value, abstracting Python's float rendering. -/
inductive Arg
  | lit (s : String)
  | num (q : ℚ)
deriving DecidableEq, Repr

/-- The structured content of the `progress.emit(...)` strings of
`WorkerThread.run`, in source order. -/
inductive Msg
  | probing
  | origRes (s : String)
  | targetRes (w h : ℤ)
  | durationInfo (total : ℚ) (num : ℕ)
  | scaleCropMode
  | scalePadMode
  | escalate
  | fastMode
  | preciseMode
  | creating (i : ℕ) (start dur : ℚ)
  | segWarn (i : ℕ) (stderr : String)
  | segOk (i : ℕ)
deriving DecidableEq, Repr

/-- The f-string each `Msg` is emitted as (numeric formatting abstracted
by `toString`). -/
def renderMsg : Msg → String
  | .probing => "📏 Визначення параметрів відео..."
  | .origRes s => "📊 Оригінальна роздільна здатність: " ++ s
  | .targetRes w h => "📊 Цільова роздільна здатність: " ++ toString w ++ "x" ++ toString h
  | .durationInfo total num =>
      "📊 Тривалість: " ++ toString total ++ " сек, Сегментів: " ++ toString num
  | .scaleCropMode => "📐 Режим масштабування: Full frame з обрізкою"
  | .scalePadMode => "📐 Режим масштабування: Вмістити з чорними смугами"
  | .escalate => "⚡ Зміна роздільної здатності потребує перекодування. Перемикаю на точний режим..."
  | .fastMode => "⚡ Швидкий режим: нарізка без перекодування..."
  | .preciseMode => "🎯 Точний режим: перекодування..."
  | .creating i start dur =>
      "🎬 Створення сегмента " ++ toString (i + 1) ++ " (" ++ toString start ++ " - " ++
        toString (start + dur) ++ ", " ++ toString dur ++ " сек)"
  | .segWarn i stderr => "⚠️ Попередження для сегмента " ++ toString (i + 1) ++ ": " ++ stderr
  | .segOk i => "✅ Сегмент " ++ toString (i + 1) ++ " готовий"

/-- An observable step of `WorkerThread.run`: a `progress` signal, a
`segment_progress` signal, the `subprocess.run` invocation for segment
`i`, the `error` signal for a failed precise segment, or the terminal
`finished` signal. -/
inductive Event
  | progress (m : Msg)
  | segmentProgress (p : ℤ)
  | exec (i : ℕ) (cmd : List Arg)
  | errorEv (i : ℕ) (stderr : String)
  | finishedEv (outputDir : String)
deriving DecidableEq, Repr

/-- The inputs of one orchestration run, as captured by the
`WorkerThread` constructor plus the outcomes of the external probes and
per-segment tool invocations (exit code and stderr of each
`subprocess.run`). -/
structure RunInput where
  filename : String
  ext : String
  inputPath : String
  outputDir : String
  ffmpegPath : String
  total : ℚ
  segLen : ℚ
  mode : Mode
  resolution : String
  scaleCrop : Bool
  resProbeOk : Bool
  resProbeOut : String
  exitCode : ℕ → ℤ
  stderrOf : ℕ → String

/-- Split a character list at every occurrence of `c` (Python
`str.split(c)` on the underlying characters): always returns at least one
group, adjacent separators give empty groups. -/
def splitChar (c : Char) : List Char → List (List Char)
  | [] => [[]]
  | a :: rest =>
    let r := splitChar c rest
    if a = c then [] :: r
    else
      match r with
      | [] => [[a]]
      | g :: gs => (a :: g) :: gs

/-- Python `str.strip()`: remove leading and trailing whitespace
(character-level model of the source's `.strip()`). -/
def pyStrip (s : String) : String :=
  String.mk (((s.data.dropWhile Char.isWhitespace).reverse.dropWhile Char.isWhitespace).reverse)

/-- Value of a decimal digit, `none` on a non-digit. -/
def digitVal (c : Char) : Option ℕ :=
  if c.isDigit then some (c.toNat - 48) else none

/-- Parse a nonempty all-digit character list as a natural number. -/
def digitsToNat : List Char → Option ℕ
  | [] => none
  | l => l.foldl
      (fun acc c =>
        match acc, digitVal c with
        | some n, some d => some (n * 10 + d)
        | _, _ => none)
      (some 0)

/-- Python `int(s)` on a decimal string literal: optional surrounding
whitespace, optional sign, decimal digits; anything else raises (here:
`none`). -/
def pyIntParse (s : String) : Option ℤ :=
  let l := (s.data.dropWhile Char.isWhitespace).reverse.dropWhile Char.isWhitespace |>.reverse
  match l with
  | '-' :: rest => (digitsToNat rest).map (fun n => -(n : ℤ))
  | '+' :: rest => (digitsToNat rest).map (fun n => (n : ℤ))
  | l' => (digitsToNat l').map (fun n => (n : ℤ))

/-- `orig_width, orig_height = map(int, original_res.split('x'))`: succeeds
exactly when the split yields two groups and both parse as ints. -/
def parseRes (s : String) : Option (ℤ × ℤ) :=
  match (splitChar 'x' s.data).map String.mk with
  | [w, h] =>
    match pyIntParse w, pyIntParse h with
    | some wn, some hn => some (wn, hn)
    | _, _ => none
  | _ => none

/-- The geometry arithmetic of `calculate_target_resolution` (lines
234-250) once the source dimensions are known: each ratio class bounds
its leading dimension by `min` with a fixed ceiling and derives the
companion by Python `int()` truncation of the exact ratio product. -/
def calcTargetFromDims (ow oh : ℤ) (targetRatio : String) : Option (ℤ × ℤ) :=
  if targetRatio = "9:16" then
    let th := min oh 1920
    some (pyInt ((th : ℚ) * 9 / 16), th)
  else if targetRatio = "4:5" then
    let th := min oh 1350
    some (pyInt ((th : ℚ) * 4 / 5), th)
  else if targetRatio = "1:1" then
    let ts := min (min ow oh) 1080
    some (ts, ts)
  else if targetRatio = "16:9" then
    let tw := min ow 1920
    some (tw, pyInt ((tw : ℚ) * 9 / 16))
  else
    none

/-- `WorkerThread.calculate_target_resolution` (lines 223-250): `original`
yields no transform; otherwise parse `WIDTHxHEIGHT`, falling back to
1920×1080 on any parse error, then apply the ratio arithmetic. -/
def calculate_target_resolution (originalRes targetRatio : String) : Option (ℤ × ℤ) :=
  if targetRatio = "original" then none
  else
    let p := (parseRes originalRes).getD (1920, 1080)
    calcTargetFromDims p.1 p.2 targetRatio

/-- `num_segments = int(total_duration // self.segment_duration) + 1`
(line 73). -/
def num_segments (total segLen : ℚ) : ℕ := (⌊total / segLen⌋).toNat + 1

/-- The per-segment duration decision (lines 100-108 / 146-154): the
remaining time if it is shorter than the segment length, else the segment
length.  Only meaningful when the remaining time is positive. -/
def segDur (total segLen : ℚ) (i : ℕ) : ℚ :=
  let remaining := total - (i : ℚ) * segLen
  if remaining < segLen then remaining else segLen

/-- One planned/executed segment: its index, start time and duration. -/
structure Segment where
  index : ℕ
  start : ℚ
  duration : ℚ
deriving DecidableEq, Repr

/-- The segment-planning part of the loop body (lines 97-108, identical
at 143-154), iterated with the source's `break` conditions: stop before a
segment whose remaining time is `<= 0`, and (defensively, line 136/188)
after a segment whose start reached the total duration.  `fuel` is the
`range(num_segments)` bound. -/
def segLoop (total segLen : ℚ) : ℕ → ℕ → List Segment
  | _, 0 => []
  | i, fuel + 1 =>
    let start := (i : ℚ) * segLen
    let remaining := total - start
    if remaining ≤ 0 then []
    else
      let dur := if remaining < segLen then remaining else segLen
      if start ≥ total then [⟨i, start, dur⟩]
      else ⟨i, start, dur⟩ :: segLoop total segLen (i + 1) fuel

/-- The segments the run executes: the loop of `WorkerThread.run` over
`range(num_segments)` restricted to its planning content. -/
def plannedSegments (total segLen : ℚ) : List Segment :=
  segLoop total segLen 0 (num_segments total segLen)

/-- `int((i + 1) / num_segments * 100)` (line 134 / 186). -/
def pyPercent (i num : ℕ) : ℤ := pyInt (((i : ℚ) + 1) / (num : ℚ) * 100)

/-- The scale/pad filter tokens (lines 79-86): the f-string split on
whitespace gives exactly two tokens, `-vf` and the filter expression. -/
def scaleTokens (scaleCrop : Bool) (tw th : Option ℤ) : List Arg :=
  if scaleCrop then
    [.lit "-vf",
     .lit ("scale=" ++ dimStr tw ++ "x" ++ dimStr th ++
       ":force_original_aspect_ratio=increase,crop=" ++ dimStr tw ++ ":" ++ dimStr th)]
  else
    [.lit "-vf",
     .lit ("scale=" ++ dimStr tw ++ ":" ++ dimStr th ++
       ":force_original_aspect_ratio=decrease,pad=" ++ dimStr tw ++ ":" ++ dimStr th ++
       ":(ow-iw)/2:(oh-ih)/2")]

/-- The fast-mode (stream copy) command for segment `i` (lines 112-123):
output keeps the source extension. -/
def fast_cmd (inp : RunInput) (filt : List Arg) (i : ℕ) (start dur : ℚ) : List Arg :=
  [.lit (inp.ffmpegPath ++ "ffmpeg"),
   .lit "-accurate_seek",
   .lit "-ss", .num start,
   .lit "-i", .lit inp.inputPath,
   .lit "-t", .num dur,
   .lit "-c", .lit "copy",
   .lit "-map", .lit "0:v",
   .lit "-map", .lit "0:a"] ++ filt ++
  [.lit (joinPath inp.outputDir (inp.filename ++ "_" ++ pad3 i ++ inp.ext))]

/-- The precise-mode (re-encode) command for segment `i` (lines 158-174):
libx264 CRF 23 preset medium, AAC 192k, faststart, output forced to
`.mp4`. -/
def precise_cmd (inp : RunInput) (filt : List Arg) (i : ℕ) (start dur : ℚ) : List Arg :=
  [.lit (inp.ffmpegPath ++ "ffmpeg"),
   .lit "-accurate_seek",
   .lit "-ss", .num start,
   .lit "-i", .lit inp.inputPath,
   .lit "-t", .num dur,
   .lit "-c:v", .lit "libx264",
   .lit "-c:a", .lit "aac",
   .lit "-preset", .lit "medium",
   .lit "-crf", .lit "23",
   .lit "-b:a", .lit "192k",
   .lit "-map", .lit "0:v",
   .lit "-map", .lit "0:a",
   .lit "-movflags", .lit "+faststart"] ++ filt ++
  [.lit (joinPath inp.outputDir (inp.filename ++ "_" ++ pad3 i ++ ".mp4"))]

/-- The events of one fast-mode loop iteration for segment `i` (lines
98-137): creation notice, tool invocation, warning or success line
depending on the exit code, percentage emit. -/
def fastBlock (inp : RunInput) (filt : List Arg) (num i : ℕ) : List Event :=
  let start := (i : ℚ) * inp.segLen
  let dur := segDur inp.total inp.segLen i
  [.progress (.creating i start dur),
   .exec i (fast_cmd inp filt i start dur),
   if inp.exitCode i ≠ 0 then .progress (.segWarn i (inp.stderrOf i))
   else .progress (.segOk i),
   .segmentProgress (pyPercent i num)]

/-- The fast-mode loop (lines 97-137). -/
def fastLoop (inp : RunInput) (filt : List Arg) (num : ℕ) : ℕ → ℕ → List Event
  | _, 0 => []
  | i, fuel + 1 =>
    let start := (i : ℚ) * inp.segLen
    let remaining := inp.total - start
    if remaining ≤ 0 then []
    else
      if start ≥ inp.total then fastBlock inp filt num i
      else fastBlock inp filt num i ++ fastLoop inp filt num (i + 1) fuel

/-- The events of one successful precise-mode loop iteration (lines
144-186). -/
def preciseBlock (inp : RunInput) (filt : List Arg) (num i : ℕ) : List Event :=
  let start := (i : ℚ) * inp.segLen
  let dur := segDur inp.total inp.segLen i
  [.progress (.creating i start dur),
   .exec i (precise_cmd inp filt i start dur),
   .progress (.segOk i),
   .segmentProgress (pyPercent i num)]

/-- The events of a failing precise-mode iteration (lines 176-182): the
`error` signal is emitted and the whole run returns. -/
def preciseFailBlock (inp : RunInput) (filt : List Arg) (i : ℕ) : List Event :=
  let start := (i : ℚ) * inp.segLen
  let dur := segDur inp.total inp.segLen i
  [.progress (.creating i start dur),
   .exec i (precise_cmd inp filt i start dur),
   .errorEv i (inp.stderrOf i)]

/-- The precise-mode loop (lines 143-189): the boolean is `false` exactly
when a non-zero exit aborted the run. -/
def preciseLoop (inp : RunInput) (filt : List Arg) (num : ℕ) : ℕ → ℕ → List Event × Bool
  | _, 0 => ([], true)
  | i, fuel + 1 =>
    let start := (i : ℚ) * inp.segLen
    let remaining := inp.total - start
    if remaining ≤ 0 then ([], true)
    else
      if inp.exitCode i ≠ 0 then (preciseFailBlock inp filt i, false)
      else
        if start ≥ inp.total then (preciseBlock inp filt num i, true)
        else
          let rest := preciseLoop inp filt num (i + 1) fuel
          (preciseBlock inp filt num i ++ rest.1, rest.2)

/-- Lines 88-91: the mode the segment loop actually runs in — `fast` is
force-switched to `precise` whenever the target ratio is not
`original`. -/
def effectiveMode (inp : RunInput) : Mode :=
  if inp.resolution ≠ "original" ∧ inp.mode = .fast then .precise else inp.mode

/-- The `original_resolution` value (lines 63-64): the probe's stripped
stdout on success, the literal `"1920x1080"` on tool failure. -/
def origResOf (inp : RunInput) : String :=
  if inp.resProbeOk then pyStrip inp.resProbeOut else "1920x1080"

/-- The `(target_width, target_height)` pair of line 69. -/
def targetResOf (inp : RunInput) (origRes : String) : Option (ℤ × ℤ) :=
  calculate_target_resolution origRes inp.resolution

/-- The `scale_filter` tokens the segment commands receive (lines 77-86):
empty for an `original` target ratio. -/
def runFilt (inp : RunInput) (origRes : String) : List Arg :=
  if inp.resolution ≠ "original" then
    scaleTokens inp.scaleCrop ((targetResOf inp origRes).map Prod.fst)
      ((targetResOf inp origRes).map Prod.snd)
  else []

/-- Line 70-71: the target-resolution progress line, emitted only when
both dimensions are truthy. -/
def targetMsgs (inp : RunInput) (origRes : String) : List Msg :=
  match targetResOf inp origRes with
  | some (w, h) => if w ≠ 0 ∧ h ≠ 0 then [.targetRes w h] else []
  | none => []

/-- Lines 79-91: the scale-mode notice and, when the caller asked for
fast mode, the escalation notice. -/
def scaleMsgs (inp : RunInput) : List Msg :=
  if inp.resolution ≠ "original" then
    [if inp.scaleCrop then .scaleCropMode else .scalePadMode] ++
      (if inp.mode = .fast then [.escalate] else [])
  else []

/-- The progress lines emitted before the mode banner and the segment
loop (lines 43-91). -/
def headMsgs (inp : RunInput) (origRes : String) : List Msg :=
  [.probing, .origRes origRes] ++ targetMsgs inp origRes ++
    [.durationInfo inp.total (num_segments inp.total inp.segLen)] ++
    scaleMsgs inp

/-- The same lines as emitted events. -/
def headEvs (inp : RunInput) (origRes : String) : List Event :=
  (headMsgs inp origRes).map Event.progress

/-- `WorkerThread.run` from the resolution probe onward (lines 63-191),
parametrised by the `original_resolution` string: the ordered trace of
progress/exec/error/finished events. -/
def runWithRes (inp : RunInput) (origRes : String) : List Event :=
  let num := num_segments inp.total inp.segLen
  let filt := runFilt inp origRes
  match effectiveMode inp with
  | .fast =>
      headEvs inp origRes ++ [.progress .fastMode] ++ fastLoop inp filt num 0 num ++
        [.finishedEv inp.outputDir]
  | .precise =>
      let res := preciseLoop inp filt num 0 num
      headEvs inp origRes ++ [.progress .preciseMode] ++ res.1 ++
        (if res.2 then [.finishedEv inp.outputDir] else [])

/-- The full modelled run. -/
def run (inp : RunInput) : List Event := runWithRes inp (origResOf inp)

/-- The number of loop iterations actually executed: the first index
whose remaining time is `<= 0`. -/
def execCount (total segLen : ℚ) : ℕ := (⌈total / segLen⌉).toNat

/-- The percentage values of a trace, in emission order. -/
def percentEvents (tr : List Event) : List ℤ :=
  tr.filterMap fun e =>
    match e with
    | .segmentProgress p => some p
    | _ => none

/-- How many iterations of the precise-mode loop complete (reach the
`segment_progress` emit of line 186) before the loop stops: it mirrors
`preciseLoop`, counting one per emitted percentage and none for the
iteration that fails and aborts. -/
def preciseCount (inp : RunInput) : ℕ → ℕ → ℕ
  | _, 0 => 0
  | i, fuel + 1 =>
    if inp.total - (i : ℚ) * inp.segLen ≤ 0 then 0
    else if inp.exitCode i ≠ 0 then 0
    else if (i : ℚ) * inp.segLen ≥ inp.total then 1
    else preciseCount inp (i + 1) fuel + 1

/-- The number of segments of a run that complete, i.e. reach their
percentage emit (line 134 / 186): in fast mode every executed segment
does (a non-zero exit only downgrades to a warning); in precise mode
the segments before the first failure do. -/
def completedCount (inp : RunInput) : ℕ :=
  match effectiveMode inp with
  | .fast => execCount inp.total inp.segLen
  | .precise => preciseCount inp 0 (num_segments inp.total inp.segLen)

/-- A typical caller-supplied input used for the concrete instances:
a 100-second video split into 35-second segments, fast mode, no
geometry change, all tool invocations succeeding. -/
def baseInput : RunInput where
  filename := "video"
  ext := ".mov"
  inputPath := "C:/in/video.mov"
  outputDir := "C:/in/video"
  ffmpegPath := ""
  total := 100
  segLen := 35
  mode := .fast
  resolution := "original"
  scaleCrop := true
  resProbeOk := true
  resProbeOut := "1920x1080"
  exitCode := fun _ => 0
  stderrOf := fun _ => ""

/-- Fast-mode request with a 9:16 target: exercises mode escalation. -/
def inpEsc : RunInput := { baseInput with total := 10, segLen := 60, resolution := "9:16" }

/-- Fast mode, three segments, segment 1 (0-based) failing. -/
def inpWarn : RunInput :=
  { baseInput with
      exitCode := fun i => if i = 1 then 1 else 0
      stderrOf := fun _ => "boom" }

/-- Precise mode, three segments, segment 1 (0-based) failing. -/
def inpAbort : RunInput :=
  { baseInput with
      mode := .precise
      exitCode := fun i => if i = 1 then 1 else 0
      stderrOf := fun _ => "boom" }

/-- Precise mode, one segment, everything succeeding. -/
def inpPrecise : RunInput := { baseInput with total := 10, segLen := 60, mode := .precise }

/-- Precise 9:16 run whose resolution probe fails. -/
def inpProbeFail : RunInput :=
  { baseInput with
      total := 10, segLen := 60, mode := .precise, resolution := "9:16"
      resProbeOk := false, resProbeOut := "" }

/-- The same run with the probe succeeding on a genuine 1920×1080
source. -/
def inpProbeOk : RunInput := { inpProbeFail with resProbeOk := true, resProbeOut := "1920x1080" }

/-- Fast-mode run with an exact-multiple duration: 120 seconds in
60-second segments. -/
def inpExact : RunInput := { baseInput with total := 120, segLen := 60 }

/-! ### Arithmetic facts about the executed-segment count -/

lemma execCount_le_iff {t s : ℚ} (hs : 0 < s) {i : ℕ} :
    execCount t s ≤ i ↔ t - (i : ℚ) * s ≤ 0 := by
  unfold execCount
  rw [Int.toNat_le, Int.ceil_le, div_le_iff₀ hs]
  push_cast
  constructor <;> intro h <;> linarith

lemma lt_execCount_iff {t s : ℚ} (hs : 0 < s) {i : ℕ} :
    i < execCount t s ↔ (i : ℚ) * s < t := by
  rw [← not_le, execCount_le_iff hs, not_le]
  constructor <;> intro h <;> linarith

lemma execCount_pos {t s : ℚ} (ht : 0 < t) (hs : 0 < s) : 0 < execCount t s := by
  rw [lt_execCount_iff hs]
  simpa using ht

lemma execCount_le_num {t s : ℚ} (ht : 0 < t) (hs : 0 < s) :
    execCount t s ≤ num_segments t s := by
  unfold execCount num_segments
  have h1 : ⌈t / s⌉ ≤ ⌊t / s⌋ + 1 := Int.ceil_le_floor_add_one _
  have h2 : (0 : ℤ) ≤ ⌊t / s⌋ := Int.floor_nonneg.mpr (by positivity)
  omega

lemma total_le_execCount_mul {t s : ℚ} (ht : 0 < t) (hs : 0 < s) :
    t ≤ (execCount t s : ℚ) * s := by
  have h0 : (0 : ℤ) ≤ ⌈t / s⌉ := Int.ceil_nonneg (by positivity)
  have h1 : t / s ≤ ((⌈t / s⌉ : ℤ) : ℚ) := Int.le_ceil _
  have h2 : ((execCount t s : ℕ) : ℚ) = ((⌈t / s⌉ : ℤ) : ℚ) := by
    unfold execCount
    exact_mod_cast congrArg (fun z : ℤ => (z : ℚ)) (Int.toNat_of_nonneg h0)
  rw [h2]
  calc t = t / s * s := by field_simp
    _ ≤ ((⌈t / s⌉ : ℤ) : ℚ) * s := mul_le_mul_of_nonneg_right h1 hs.le

/-! ### Closed form of the segment-planning loop -/

/-- The segment the loop body produces at index `i` (start `i * segLen`,
duration `segDur`). -/
def segSpec (t s : ℚ) (j : ℕ) : Segment := ⟨j, (j : ℚ) * s, segDur t s j⟩

lemma segLoop_eq {t s : ℚ} (hs : 0 < s) :
    ∀ fuel i, execCount t s - i ≤ fuel →
      segLoop t s i fuel = (List.range' i (execCount t s - i)).map (segSpec t s) := by
  intro fuel
  induction fuel with
  | zero =>
    intro i h
    rw [Nat.sub_eq_zero_of_le (by omega)]
    simp [segLoop]
  | succ n ih =>
    intro i h
    by_cases hrem : t - (i : ℚ) * s ≤ 0
    · rw [Nat.sub_eq_zero_of_le ((execCount_le_iff hs).mpr hrem)]
      simp [segLoop, hrem]
    · have hi : i < execCount t s := by
        by_contra hcon
        exact hrem ((execCount_le_iff hs).mp (by omega))

      have hstart : ¬ (i : ℚ) * s ≥ t := by
        push_neg at hrem ⊢
        linarith
      have hcount : execCount t s - i = (execCount t s - (i + 1)) + 1 := by omega
      rw [hcount, List.range'_succ, List.map_cons]
      simp only [segLoop, if_neg hrem, if_neg hstart]
      rw [ih (i + 1) (by omega)]
      rfl

lemma plannedSegments_eq {t s : ℚ} (ht : 0 < t) (hs : 0 < s) :
    plannedSegments t s = (List.range' 0 (execCount t s)).map (segSpec t s) := by
  unfold plannedSegments
  rw [segLoop_eq hs (num_segments t s) 0 (by simpa using execCount_le_num ht hs)]
  simp

lemma segLoop_sum {t s : ℚ} (hs : 0 < s) :
    ∀ fuel i, execCount t s - i ≤ fuel →
      ((segLoop t s i fuel).map Segment.duration).sum = max 0 (t - (i : ℚ) * s) := by
  intro fuel
  induction fuel with
  | zero =>
    intro i h
    have hle : execCount t s ≤ i := by omega
    have : t - (i : ℚ) * s ≤ 0 := (execCount_le_iff hs).mp hle
    simp [segLoop, max_eq_left this]
  | succ n ih =>
    intro i h
    by_cases hrem : t - (i : ℚ) * s ≤ 0
    · simp [segLoop, hrem, max_eq_left hrem]
    · have hi : i < execCount t s := by
        by_contra hcon
        exact hrem ((execCount_le_iff hs).mp (by omega))
      have hstart : ¬ (i : ℚ) * s ≥ t := by
        push_neg at hrem ⊢
        linarith
      simp only [segLoop, if_neg hrem, if_neg hstart]
      by_cases hlast : t - (i : ℚ) * s < s
      · have hnext : t - ((i : ℚ) + 1) * s ≤ 0 := by ring_nf; ring_nf at hlast; linarith
        have hrec := ih (i + 1) (by omega)
        push_cast at hrec
        rw [List.map_cons, List.sum_cons, hrec, max_eq_left hnext, if_pos hlast]
        rw [max_eq_right (by linarith)]
        ring
      · have hnext : 0 ≤ t - ((i : ℚ) + 1) * s := by
          push_neg at hlast
          ring_nf
          ring_nf at hlast
          linarith
        have hrec := ih (i + 1) (by omega)
        push_cast at hrec
        rw [List.map_cons, List.sum_cons, hrec, max_eq_right hnext, if_neg hlast]
        rw [max_eq_right (by linarith)]
        ring

lemma plannedSegments_sum {t s : ℚ} (ht : 0 < t) (hs : 0 < s) :
    ((plannedSegments t s).map Segment.duration).sum = t := by
  unfold plannedSegments
  rw [segLoop_sum hs (num_segments t s) 0 (by simpa using execCount_le_num ht hs)]
  simp [max_eq_right ht.le]

/-! ### Closed forms of the two execution loops -/

lemma fastLoop_eq (inp : RunInput) (filt : List Arg) (num : ℕ) (hs : 0 < inp.segLen) :
    ∀ fuel i, execCount inp.total inp.segLen - i ≤ fuel →
      fastLoop inp filt num i fuel =
        ((List.range' i (execCount inp.total inp.segLen - i)).map
          (fastBlock inp filt num)).flatten := by
  intro fuel
  induction fuel with
  | zero =>
    intro i h
    rw [Nat.sub_eq_zero_of_le (by omega)]
    simp [fastLoop]
  | succ n ih =>
    intro i h
    by_cases hrem : inp.total - (i : ℚ) * inp.segLen ≤ 0
    · rw [Nat.sub_eq_zero_of_le ((execCount_le_iff hs).mpr hrem)]
      simp [fastLoop, hrem]
    · have hi : i < execCount inp.total inp.segLen := by
        by_contra hcon
        exact hrem ((execCount_le_iff hs).mp (by omega))
      have hstart : ¬ (i : ℚ) * inp.segLen ≥ inp.total := by
        push_neg at hrem ⊢
        linarith
      have hcount : execCount inp.total inp.segLen - i =
          (execCount inp.total inp.segLen - (i + 1)) + 1 := by omega
      rw [hcount, List.range'_succ, List.map_cons, List.flatten_cons]
      simp only [fastLoop, if_neg hrem, if_neg hstart]
      rw [ih (i + 1) (by omega)]

lemma preciseLoop_ok (inp : RunInput) (filt : List Arg) (num : ℕ) (hs : 0 < inp.segLen) :
    ∀ fuel i, execCount inp.total inp.segLen - i ≤ fuel →
      (∀ j, i ≤ j → j < execCount inp.total inp.segLen → inp.exitCode j = 0) →
      preciseLoop inp filt num i fuel =
        (((List.range' i (execCount inp.total inp.segLen - i)).map
          (preciseBlock inp filt num)).flatten, true) := by
  intro fuel
  induction fuel with
  | zero =>
    intro i h _
    rw [Nat.sub_eq_zero_of_le (by omega)]
    simp [preciseLoop]
  | succ n ih =>
    intro i h hok
    by_cases hrem : inp.total - (i : ℚ) * inp.segLen ≤ 0
    · rw [Nat.sub_eq_zero_of_le ((execCount_le_iff hs).mpr hrem)]
      simp [preciseLoop, hrem]
    · have hi : i < execCount inp.total inp.segLen := by
        by_contra hcon
        exact hrem ((execCount_le_iff hs).mp (by omega))
      have hstart : ¬ (i : ℚ) * inp.segLen ≥ inp.total := by
        push_neg at hrem ⊢
        linarith
      have hzero : ¬ inp.exitCode i ≠ 0 := by
        simpa using hok i le_rfl hi
      have hcount : execCount inp.total inp.segLen - i =
          (execCount inp.total inp.segLen - (i + 1)) + 1 := by omega
      rw [hcount, List.range'_succ, List.map_cons, List.flatten_cons]
      simp only [preciseLoop, if_neg hrem, if_neg hzero, if_neg hstart]
      rw [ih (i + 1) (by omega) (fun j hj hj' => hok j (by omega) hj')]

lemma preciseLoop_fail (inp : RunInput) (filt : List Arg) (num : ℕ) (hs : 0 < inp.segLen)
    (k : ℕ) (hk : k < execCount inp.total inp.segLen) (hfail : inp.exitCode k ≠ 0) :
    ∀ fuel i, i ≤ k → k + 1 - i ≤ fuel →
      (∀ j, i ≤ j → j < k → inp.exitCode j = 0) →
      preciseLoop inp filt num i fuel =
        (((List.range' i (k - i)).map (preciseBlock inp filt num)).flatten ++
          preciseFailBlock inp filt k, false) := by
  intro fuel
  induction fuel with
  | zero =>
    intro i hik h _
    omega
  | succ n ih =>
    intro i hik h hok
    have hi : i < execCount inp.total inp.segLen := by omega
    have hrem : ¬ inp.total - (i : ℚ) * inp.segLen ≤ 0 := by
      have := (lt_execCount_iff hs).mp hi
      push_neg
      linarith
    have hstart : ¬ (i : ℚ) * inp.segLen ≥ inp.total := by
      have := (lt_execCount_iff hs).mp hi
      push_neg
      linarith
    rcases Nat.eq_or_lt_of_le hik with heq | hlt
    · subst heq
      rw [Nat.sub_self]
      simp only [preciseLoop, if_neg hrem, if_pos hfail]
      simp
    · have hzero : ¬ inp.exitCode i ≠ 0 := by
        simpa using hok i le_rfl hlt
      have hcount : k - i = (k - (i + 1)) + 1 := by omega
      rw [hcount, List.range'_succ, List.map_cons, List.flatten_cons]
      simp only [preciseLoop, if_neg hrem, if_neg hzero, if_neg hstart]
      rw [ih (i + 1) (by omega) (by omega) (fun j hj hj' => hok j (by omega) hj')]
      simp

/-! ### Characterisations of the whole run -/

lemma effectiveMode_fast_iff {inp : RunInput} :
    effectiveMode inp = .fast ↔ inp.mode = .fast ∧ inp.resolution = "original" := by
  unfold effectiveMode
  by_cases hr : inp.resolution = "original" <;> cases hmode : inp.mode <;> simp [hr, hmode]

lemma run_fast (inp : RunInput) (ht : 0 < inp.total) (hs : 0 < inp.segLen)
    (hm : effectiveMode inp = .fast) :
    run inp = headEvs inp (origResOf inp) ++ [.progress .fastMode] ++
      ((List.range' 0 (execCount inp.total inp.segLen)).map
        (fastBlock inp (runFilt inp (origResOf inp))
          (num_segments inp.total inp.segLen))).flatten ++
      [.finishedEv inp.outputDir] := by
  have h1 := fastLoop_eq inp (runFilt inp (origResOf inp))
    (num_segments inp.total inp.segLen) hs (num_segments inp.total inp.segLen) 0
    (by simpa using execCount_le_num ht hs)
  simp only [run, runWithRes, hm, Nat.sub_zero] at h1 ⊢
  rw [h1]

lemma run_precise_ok (inp : RunInput) (ht : 0 < inp.total) (hs : 0 < inp.segLen)
    (hm : effectiveMode inp = .precise)
    (hall : ∀ j, j < execCount inp.total inp.segLen → inp.exitCode j = 0) :
    run inp = headEvs inp (origResOf inp) ++ [.progress .preciseMode] ++
      ((List.range' 0 (execCount inp.total inp.segLen)).map
        (preciseBlock inp (runFilt inp (origResOf inp))
          (num_segments inp.total inp.segLen))).flatten ++
      [.finishedEv inp.outputDir] := by
  have h1 := preciseLoop_ok inp (runFilt inp (origResOf inp))
    (num_segments inp.total inp.segLen) hs (num_segments inp.total inp.segLen) 0
    (by simpa using execCount_le_num ht hs) (fun j _ hj => hall j hj)
  simp only [run, runWithRes, hm, Nat.sub_zero] at h1 ⊢
  rw [h1]
  simp

lemma run_precise_fail (inp : RunInput) (ht : 0 < inp.total) (hs : 0 < inp.segLen)
    (hm : effectiveMode inp = .precise)
    (k : ℕ) (hk : k < execCount inp.total inp.segLen) (hfail : inp.exitCode k ≠ 0)
    (hfirst : ∀ j, j < k → inp.exitCode j = 0) :
    run inp = headEvs inp (origResOf inp) ++ [.progress .preciseMode] ++
      ((List.range' 0 k).map
        (preciseBlock inp (runFilt inp (origResOf inp))
          (num_segments inp.total inp.segLen))).flatten ++
      preciseFailBlock inp (runFilt inp (origResOf inp)) k := by
  have hnum : k + 1 ≤ num_segments inp.total inp.segLen := by
    have := execCount_le_num ht hs
    omega
  have h1 := preciseLoop_fail inp (runFilt inp (origResOf inp))
    (num_segments inp.total inp.segLen) hs k hk hfail
    (num_segments inp.total inp.segLen) 0 (by omega) (by omega)
    (fun j _ hj => hfirst j hj)
  simp only [run, runWithRes, hm, Nat.sub_zero] at h1 ⊢
  rw [h1]
  simp

lemma headEvs_progress {inp : RunInput} {o : String} :
    ∀ e ∈ headEvs inp o, ∃ m, e = Event.progress m := by
  intro e he
  rcases List.mem_map.mp he with ⟨m, _, rfl⟩
  exact ⟨m, rfl⟩

lemma mem_plannedSegments {t s : ℚ} (ht : 0 < t) (hs : 0 < s) {sg : Segment}
    (hsg : sg ∈ plannedSegments t s) :
    ∃ j, j < execCount t s ∧ sg = segSpec t s j := by
  rw [plannedSegments_eq ht hs] at hsg
  rcases List.mem_map.mp hsg with ⟨j, hj, rfl⟩
  exact ⟨j, by simpa using (List.mem_range'_1.mp hj).2, rfl⟩

lemma plannedSegments_length {t s : ℚ} (ht : 0 < t) (hs : 0 < s) :
    (plannedSegments t s).length = execCount t s := by
  rw [plannedSegments_eq ht hs]
  simp

lemma preciseLoop_exec {inp : RunInput} {filt : List Arg} {num : ℕ} :
    ∀ fuel i j c, Event.exec j c ∈ (preciseLoop inp filt num i fuel).1 →
      c = precise_cmd inp filt j ((j : ℚ) * inp.segLen) (segDur inp.total inp.segLen j) := by
  intro fuel
  induction fuel with
  | zero =>
    intro i j c hc
    simp [preciseLoop] at hc
  | succ n ih =>
    intro i j c hc
    simp only [preciseLoop] at hc
    split_ifs at hc
    · simp at hc
    · simp only [preciseFailBlock, List.mem_cons, List.mem_singleton] at hc
      rcases hc with hc | hc | hc | hc <;> first
        | (cases hc; rfl)
        | simp at hc
    · simp only [preciseBlock, List.mem_cons, List.mem_singleton] at hc
      rcases hc with hc | hc | hc | hc | hc <;> first
        | (cases hc; rfl)
        | simp at hc
    · simp only [List.mem_append, preciseBlock, List.mem_cons, List.mem_singleton] at hc
      rcases hc with (hc | hc | hc | hc | hc) | hc <;> first
        | (cases hc; rfl)
        | simp at hc
        | exact ih (i + 1) j c hc

lemma fastLoop_exec {inp : RunInput} {filt : List Arg} {num : ℕ} :
    ∀ fuel i j c, Event.exec j c ∈ fastLoop inp filt num i fuel →
      c = fast_cmd inp filt j ((j : ℚ) * inp.segLen) (segDur inp.total inp.segLen j) := by
  intro fuel
  induction fuel with
  | zero =>
    intro i j c hc
    simp [fastLoop] at hc
  | succ n ih =>
    intro i j c hc
    simp only [fastLoop] at hc
    split_ifs at hc
    · simp at hc
    · simp only [fastBlock, List.mem_cons, List.mem_singleton] at hc
      rcases hc with hc | hc | hc | hc | hc <;> first
        | (cases hc; rfl)
        | (split_ifs at hc <;> cases hc)
        | simp at hc
    · simp only [List.mem_append, fastBlock, List.mem_cons, List.mem_singleton] at hc
      rcases hc with (hc | hc | hc | hc | hc) | hc <;> first
        | (cases hc; rfl)
        | (split_ifs at hc <;> cases hc)
        | simp at hc
        | exact ih (i + 1) j c hc

lemma execCount_eval {t s : ℚ} {n : ℕ} (hs : 0 < s) (h1 : ((n : ℚ) - 1) * s < t)
    (h2 : t ≤ (n : ℚ) * s) : execCount t s = n := by
  unfold execCount
  have : ⌈t / s⌉ = (n : ℤ) := by
    rw [Int.ceil_eq_iff]
    constructor
    · push_cast
      rw [lt_div_iff₀ hs]
      linarith
    · push_cast
      rw [div_le_iff₀ hs]
      linarith
  rw [this, Int.toNat_natCast]

lemma num_segments_eval {t s : ℚ} {n : ℕ} (hs : 0 < s) (h1 : (n : ℚ) * s ≤ t)
    (h2 : t < ((n : ℚ) + 1) * s) : num_segments t s = n + 1 := by
  unfold num_segments
  have : ⌊t / s⌋ = (n : ℤ) := by
    rw [Int.floor_eq_iff]
    constructor
    · push_cast
      rw [le_div_iff₀ hs]
      linarith
    · push_cast
      rw [div_lt_iff₀ hs]
      linarith
  rw [this, Int.toNat_natCast]

lemma mem_fastBlock_iff {inp : RunInput} {filt : List Arg} {num j : ℕ} {e : Event} :
    e ∈ fastBlock inp filt num j ↔
      e = .progress (.creating j ((j : ℚ) * inp.segLen) (segDur inp.total inp.segLen j)) ∨
      e = .exec j (fast_cmd inp filt j ((j : ℚ) * inp.segLen) (segDur inp.total inp.segLen j)) ∨
      (inp.exitCode j ≠ 0 ∧ e = .progress (.segWarn j (inp.stderrOf j))) ∨
      (inp.exitCode j = 0 ∧ e = .progress (.segOk j)) ∨
      e = .segmentProgress (pyPercent j num) := by
  unfold fastBlock
  by_cases hj : inp.exitCode j = 0 <;> simp [hj]

lemma mem_preciseBlock_iff {inp : RunInput} {filt : List Arg} {num j : ℕ} {e : Event} :
    e ∈ preciseBlock inp filt num j ↔
      e = .progress (.creating j ((j : ℚ) * inp.segLen) (segDur inp.total inp.segLen j)) ∨
      e = .exec j (precise_cmd inp filt j ((j : ℚ) * inp.segLen) (segDur inp.total inp.segLen j)) ∨
      e = .progress (.segOk j) ∨
      e = .segmentProgress (pyPercent j num) := by
  unfold preciseBlock
  simp

lemma headMsgs_original {inp : RunInput} {o : String} (hr : inp.resolution = "original") :
    headMsgs inp o = [Msg.probing, Msg.origRes o,
      Msg.durationInfo inp.total (num_segments inp.total inp.segLen)] := by
  unfold headMsgs targetMsgs scaleMsgs targetResOf calculate_target_resolution
  rw [hr]
  simp

/-! ### The percentage events of a run -/

lemma pyPercent_eq_floor (i : ℕ) {num : ℕ} (hnum : 0 < num) :
    pyPercent i num = ⌊(((i : ℚ) + 1) * 100) / (num : ℚ)⌋ := by
  unfold pyPercent pyInt
  have harg : ((i : ℚ) + 1) / (num : ℚ) * 100 = ((i : ℚ) + 1) * 100 / (num : ℚ) := by
    ring
  rw [harg, if_neg]
  push_neg
  positivity

lemma pyPercent_mono {i j num : ℕ} (hnum : 0 < num) (hij : i ≤ j) :
    pyPercent i num ≤ pyPercent j num := by
  rw [pyPercent_eq_floor i hnum, pyPercent_eq_floor j hnum]
  have : (((i : ℚ) + 1) * 100) / (num : ℚ) ≤ (((j : ℚ) + 1) * 100) / (num : ℚ) := by
    have : ((i : ℚ)) ≤ (j : ℚ) := by exact_mod_cast hij
    gcongr
  exact Int.floor_le_floor this

lemma pyPercent_lt_100 {i num : ℕ} (hi : i + 1 < num) : pyPercent i num < 100 := by
  have hnum : 0 < num := by omega
  rw [pyPercent_eq_floor i hnum]
  rw [Int.floor_lt]
  rw [div_lt_iff₀ (by exact_mod_cast hnum)]
  have : ((i : ℚ) + 1) < (num : ℚ) := by exact_mod_cast hi
  push_cast
  linarith

lemma pyPercent_last {num : ℕ} (hnum : 0 < num) : pyPercent (num - 1) num = 100 := by
  rw [pyPercent_eq_floor _ hnum]
  have hcast : ((num - 1 : ℕ) : ℚ) + 1 = (num : ℚ) := by
    have : (1 : ℕ) ≤ num := hnum
    push_cast [this]
    ring
  rw [hcast]
  have hne : (num : ℚ) ≠ 0 := by exact_mod_cast hnum.ne'
  rw [mul_comm, mul_div_assoc, div_self hne, mul_one]
  norm_num

lemma percentEvents_append (l1 l2 : List Event) :
    percentEvents (l1 ++ l2) = percentEvents l1 ++ percentEvents l2 :=
  List.filterMap_append _ _ _

lemma percentEvents_map_progress (msgs : List Msg) :
    percentEvents (msgs.map Event.progress) = [] := by
  induction msgs with
  | nil => rfl
  | cons m l ih =>
    simpa [percentEvents, List.filterMap_cons] using ih

lemma percentEvents_fastBlock {inp : RunInput} {filt : List Arg} {num j : ℕ} :
    percentEvents (fastBlock inp filt num j) = [pyPercent j num] := by
  unfold fastBlock percentEvents
  by_cases hj : inp.exitCode j = 0 <;> simp [hj, List.filterMap_cons]

lemma percentEvents_preciseBlock {inp : RunInput} {filt : List Arg} {num j : ℕ} :
    percentEvents (preciseBlock inp filt num j) = [pyPercent j num] := by
  unfold preciseBlock percentEvents
  simp [List.filterMap_cons]

lemma percentEvents_flatten_blocks {f : ℕ → List Event} {g : ℕ → ℤ}
    (hf : ∀ j, percentEvents (f j) = [g j]) :
    ∀ l : List ℕ, percentEvents ((l.map f).flatten) = l.map g := by
  intro l
  induction l with
  | nil => rfl
  | cons a l ih =>
    simp only [List.map_cons, List.flatten_cons]
    rw [percentEvents_append, hf, ih]
    rfl

lemma segmentProgress_mem_iff {tr : List Event} {p : ℤ} :
    Event.segmentProgress p ∈ tr ↔ p ∈ percentEvents tr := by
  unfold percentEvents
  rw [List.mem_filterMap]
  constructor
  · intro h
    exact ⟨_, h, rfl⟩
  · rintro ⟨e, he, hme⟩
    cases e <;> simp at hme
    subst hme
    exact he

/-- The percentage events of a run that never aborts (fast mode, or
precise mode with all segments succeeding): one per executed segment, in
index order. -/
lemma percentEvents_run (inp : RunInput) (ht : 0 < inp.total) (hs : 0 < inp.segLen)
    (hc : effectiveMode inp = .fast ∨
      ∀ j, j < execCount inp.total inp.segLen → inp.exitCode j = 0) :
    percentEvents (run inp) =
      (List.range' 0 (execCount inp.total inp.segLen)).map
        (fun i => pyPercent i (num_segments inp.total inp.segLen)) := by
  cases heff : effectiveMode inp with
  | fast =>
    rw [run_fast inp ht hs heff]
    rw [percentEvents_append, percentEvents_append, percentEvents_append]
    rw [show headEvs inp (origResOf inp) = (headMsgs inp (origResOf inp)).map Event.progress
      from rfl, percentEvents_map_progress]
    rw [percentEvents_flatten_blocks (fun j => percentEvents_fastBlock)]
    simp [percentEvents]
  | precise =>
    have hall : ∀ j, j < execCount inp.total inp.segLen → inp.exitCode j = 0 := by
      rcases hc with hc | hc
      · rw [heff] at hc
        cases hc
      · exact hc
    rw [run_precise_ok inp ht hs heff hall]
    rw [percentEvents_append, percentEvents_append, percentEvents_append]
    rw [show headEvs inp (origResOf inp) = (headMsgs inp (origResOf inp)).map Event.progress
      from rfl, percentEvents_map_progress]
    rw [percentEvents_flatten_blocks (fun j => percentEvents_preciseBlock)]
    simp [percentEvents]

/-- The percentages the precise loop emits, for any exit codes: one per
completed iteration, none for the aborting one. -/
lemma percentEvents_preciseLoop (inp : RunInput) (filt : List Arg) (num : ℕ) :
    ∀ fuel i, percentEvents (preciseLoop inp filt num i fuel).1 =
      (List.range' i (preciseCount inp i fuel)).map (fun j => pyPercent j num) := by
  intro fuel
  induction fuel with
  | zero => intro i; rfl
  | succ n ih =>
    intro i
    simp only [preciseLoop, preciseCount]
    by_cases h1 : inp.total - (i : ℚ) * inp.segLen ≤ 0
    · rw [if_pos h1, if_pos h1]
      rfl
    · rw [if_neg h1, if_neg h1]
      by_cases h2 : inp.exitCode i ≠ 0
      · rw [if_pos h2, if_pos h2]
        rfl
      · rw [if_neg h2, if_neg h2]
        by_cases h3 : (i : ℚ) * inp.segLen ≥ inp.total
        · rw [if_pos h3, if_pos h3]
          rw [show List.range' i 1 = [i] from rfl]
          simpa using percentEvents_preciseBlock
        · rw [if_neg h3, if_neg h3]
          show percentEvents (preciseBlock inp filt num i ++
            (preciseLoop inp filt num (i + 1) n).1) = _
          rw [percentEvents_append, percentEvents_preciseBlock, ih, List.range'_succ]
          rfl

lemma execCount_natmul {s : ℚ} (hs : 0 < s) (k : ℕ) : execCount ((k : ℚ) * s) s = k := by
  unfold execCount
  rw [mul_div_cancel_right₀ _ hs.ne', Int.ceil_natCast, Int.toNat_natCast]

lemma num_segments_natmul {s : ℚ} (hs : 0 < s) (k : ℕ) :
    num_segments ((k : ℚ) * s) s = k + 1 := by
  unfold num_segments
  rw [mul_div_cancel_right₀ _ hs.ne', Int.floor_natCast, Int.toNat_natCast]

/-! ## The claims -/

/-- C1: for every `totalDuration > 0` and `segmentLength > 0`, the
executed segments are indexed `0, 1, 2, ...` in order, segment `i`
starts at `i * segmentLength`, every non-final segment lasts
`segmentLength`, the final segment lasts `totalDuration - start` (and
may be shorter), and the executed durations sum to exactly
`totalDuration`. -/
theorem C1_segment_plan (t s : ℚ) (ht : 0 < t) (hs : 0 < s) :
    (plannedSegments t s).map Segment.index = List.range' 0 (plannedSegments t s).length ∧
    (∀ sg ∈ plannedSegments t s, sg.start = (sg.index : ℚ) * s) ∧
    (∀ sg ∈ plannedSegments t s, sg.index + 1 < (plannedSegments t s).length →
      sg.duration = s) ∧
    (∀ sg ∈ plannedSegments t s, sg.index + 1 = (plannedSegments t s).length →
      sg.duration = t - sg.start) ∧
    ((plannedSegments t s).map Segment.duration).sum = t := by
  refine ⟨?_, ?_, ?_, ?_, plannedSegments_sum ht hs⟩
  · rw [plannedSegments_length ht hs, plannedSegments_eq ht hs, List.map_map]
    have : (Segment.index ∘ segSpec t s) = id := by
      funext j
      rfl
    rw [this, List.map_id]
  · intro sg hsg
    rcases mem_plannedSegments ht hs hsg with ⟨j, _, rfl⟩
    rfl
  · intro sg hsg hlt
    rcases mem_plannedSegments ht hs hsg with ⟨j, _, rfl⟩
    rw [plannedSegments_length ht hs] at hlt
    have hjlt : j + 1 < execCount t s := by simpa [segSpec] using hlt
    have h2 := (lt_execCount_iff (t := t) hs).mp hjlt
    push_cast at h2
    show segDur t s j = s
    unfold segDur
    rw [if_neg (by push_neg; linarith)]
  · intro sg hsg hlast
    rcases mem_plannedSegments ht hs hsg with ⟨j, hj, rfl⟩
    rw [plannedSegments_length ht hs] at hlast
    have hj1 : j + 1 = execCount t s := by simpa [segSpec] using hlast
    show segDur t s j = t - (j : ℚ) * s
    unfold segDur
    by_cases hc : t - (j : ℚ) * s < s
    · rw [if_pos hc]
    · rw [if_neg hc]
      push_neg at hc
      have hub : t ≤ ((j : ℚ) + 1) * s := by
        have h3 := total_le_execCount_mul ht hs
        rw [← hj1] at h3
        push_cast at h3
        linarith
      linarith

/-- Witness for C1 at the spec's own example `totalDuration = 125`,
`segmentLength = 60`. -/
theorem C1_segment_plan_witness :
    ((plannedSegments 125 60).map Segment.duration).sum = 125 :=
  (C1_segment_plan 125 60 (by norm_num) (by norm_num)).2.2.2.2

/-- C2: when the total duration is an exact multiple `k * segmentLength`
(`k ≥ 1`), exactly `k` segments are executed even though the planned
count `floor(total/segLen) + 1 = k + 1` has one extra slot, and every
executed segment starts strictly before the total duration. -/
theorem C2_exact_multiple (s : ℚ) (k : ℕ) (hs : 0 < s) (hk : 0 < k) :
    (plannedSegments ((k : ℚ) * s) s).length = k ∧
    num_segments ((k : ℚ) * s) s = k + 1 ∧
    ∀ sg ∈ plannedSegments ((k : ℚ) * s) s, sg.start < (k : ℚ) * s := by
  have hkq : (0 : ℚ) < (k : ℚ) := by exact_mod_cast hk
  have ht : 0 < (k : ℚ) * s := by positivity
  have hdiv : (k : ℚ) * s / s = (k : ℚ) := by
    field_simp
  have hexec : execCount ((k : ℚ) * s) s = k := by
    unfold execCount
    rw [hdiv, Int.ceil_natCast, Int.toNat_natCast]
  refine ⟨by rw [plannedSegments_length ht hs, hexec], ?_, ?_⟩
  · unfold num_segments
    rw [hdiv, Int.floor_natCast, Int.toNat_natCast]
  · intro sg hsg
    rcases mem_plannedSegments ht hs hsg with ⟨j, hj, rfl⟩
    rw [hexec] at hj
    show (j : ℚ) * s < (k : ℚ) * s
    have : (j : ℚ) < (k : ℚ) := by exact_mod_cast hj
    nlinarith

/-- Witness for C2 at the spec's boundary example `totalDuration = 120`,
`segmentLength = 60`: two executed segments, three planned slots. -/
theorem C2_exact_multiple_witness :
    (plannedSegments 120 60).length = 2 ∧ num_segments 120 60 = 3 := by
  have h := C2_exact_multiple 60 2 (by norm_num) (by norm_num)
  norm_num at h
  exact ⟨h.1, h.2.1⟩

/-- C3: for every positive source resolution, each non-Original ratio
class bounds its leading dimension by the smaller of the source
dimension and the class's fixed ceiling (1920 for 9:16 height, 1350 for
4:5 height, 1080 for the 1:1 side, 1920 for 16:9 width) and derives the
companion dimension by integer floor (the source's `int()` truncation,
which agrees with floor on these nonnegative values) of the exact ratio
product. -/
theorem C3_geometry (ow oh : ℤ) (hw : 0 < ow) (hh : 0 < oh) :
    calcTargetFromDims ow oh "9:16" =
      some (⌊((min oh 1920 : ℤ) : ℚ) * 9 / 16⌋, min oh 1920) ∧
    calcTargetFromDims ow oh "4:5" =
      some (⌊((min oh 1350 : ℤ) : ℚ) * 4 / 5⌋, min oh 1350) ∧
    calcTargetFromDims ow oh "1:1" =
      some (min (min ow oh) 1080, min (min ow oh) 1080) ∧
    calcTargetFromDims ow oh "16:9" =
      some (min ow 1920, ⌊((min ow 1920 : ℤ) : ℚ) * 9 / 16⌋) := by
  have hmin1 : (0 : ℤ) < min oh 1920 := lt_min hh (by norm_num)
  have hmin2 : (0 : ℤ) < min oh 1350 := lt_min hh (by norm_num)
  have hmin3 : (0 : ℤ) < min ow 1920 := lt_min hw (by norm_num)
  have hpy : ∀ z : ℤ, 0 < z → ∀ a b : ℚ, 0 < a → 0 < b →
      pyInt ((z : ℚ) * a / b) = ⌊(z : ℚ) * a / b⌋ := by
    intro z hz a b ha hb
    unfold pyInt
    rw [if_neg]
    push_neg
    positivity
  unfold calcTargetFromDims
  refine ⟨?_, ?_, ?_, ?_⟩ <;>
    simp only [if_pos, if_neg, String.reduceEq, reduceIte] <;>
    rw [hpy _ (by assumption) _ _ (by norm_num) (by norm_num)]

/-- C4: whenever the caller requests Fast mode together with a
non-Original aspect target, the run force-switches to Precise, the
escalation notice is emitted before any tool invocation, and every tool
invocation of the run is a precise-mode (re-encode) command — the
command builder never receives Fast. -/
theorem C4_mode_escalation (inp : RunInput) (hm : inp.mode = .fast)
    (hr : inp.resolution ≠ "original") :
    effectiveMode inp = .precise ∧
    (∃ pre post, run inp = pre ++ Event.progress Msg.escalate :: post ∧
      ∀ e ∈ pre, ∀ i c, e ≠ Event.exec i c) ∧
    ∀ i c, Event.exec i c ∈ run inp →
      c = precise_cmd inp (runFilt inp (origResOf inp)) i ((i : ℚ) * inp.segLen)
        (segDur inp.total inp.segLen i) := by
  have hEff : effectiveMode inp = .precise := by
    unfold effectiveMode
    rw [if_pos ⟨hr, hm⟩]
  have hScale : scaleMsgs inp =
      [if inp.scaleCrop then Msg.scaleCropMode else Msg.scalePadMode, Msg.escalate] := by
    unfold scaleMsgs
    rw [if_pos hr, if_pos hm]
    rfl
  have hRun : run inp =
      (([Msg.probing, Msg.origRes (origResOf inp)] ++ targetMsgs inp (origResOf inp) ++
        [Msg.durationInfo inp.total (num_segments inp.total inp.segLen),
         if inp.scaleCrop then Msg.scaleCropMode else Msg.scalePadMode]).map Event.progress) ++
      Event.progress Msg.escalate ::
        (Event.progress Msg.preciseMode ::
          ((preciseLoop inp (runFilt inp (origResOf inp))
              (num_segments inp.total inp.segLen) 0
              (num_segments inp.total inp.segLen)).1 ++
            (if (preciseLoop inp (runFilt inp (origResOf inp))
                  (num_segments inp.total inp.segLen) 0
                  (num_segments inp.total inp.segLen)).2 then
              [Event.finishedEv inp.outputDir] else []))) := by
    simp only [run, runWithRes, hEff, headEvs, headMsgs, hScale]
    simp [List.append_assoc]
  refine ⟨hEff, ⟨_, _, hRun, ?_⟩, ?_⟩
  · intro e he i c
    rcases List.mem_map.mp he with ⟨m, _, rfl⟩
    simp
  · intro i c hic
    rw [hRun] at hic
    simp only [List.mem_append, List.mem_cons, List.mem_map] at hic
    rcases hic with ⟨m, _, hme⟩ | hic | hic | hic
    · cases hme
    · cases hic
    · cases hic
    · rcases hic with hic | hic
      · exact preciseLoop_exec _ 0 i c hic
      · split_ifs at hic <;> simp at hic

/-- Witness for C3 at the spec's example: source `1920x1080` (via the
real string parser), target 9:16 gives width 607 (floor, not round) and
height 1080. -/
theorem C3_geometry_witness :
    calculate_target_resolution "1920x1080" "9:16" = some (607, 1080) := by
  have hp : parseRes "1920x1080" = some (1920, 1080) := by decide
  have h := (C3_geometry 1920 1080 (by norm_num) (by norm_num)).1
  unfold calculate_target_resolution
  rw [if_neg (by decide), hp]
  simp only [Option.getD_some]
  rw [h]
  norm_num

/-- Witness for C4: requesting fast mode with a 9:16 target forces the
precise mode. -/
theorem C4_mode_escalation_witness : effectiveMode inpEsc = Mode.precise :=
  (C4_mode_escalation inpEsc rfl (by decide)).1

/-- C5: in Fast mode (with no geometry change, so fast is not
escalated), when some but not all segments' tool invocations exit
non-zero, each failing segment gets exactly a warning line, each
succeeding segment a success line, every executed segment's tool
invocation happens, no error signal is emitted, and the run still ends
with the `finished` success signal. -/
theorem C5_fast_partial_failure (inp : RunInput) (ht : 0 < inp.total) (hs : 0 < inp.segLen)
    (hm : inp.mode = .fast) (hr : inp.resolution = "original")
    (hsome : ∃ i, i < execCount inp.total inp.segLen ∧ inp.exitCode i ≠ 0)
    (hnotall : ∃ j, j < execCount inp.total inp.segLen ∧ inp.exitCode j = 0) :
    (run inp).getLast? = some (Event.finishedEv inp.outputDir) ∧
    (∀ i, i < execCount inp.total inp.segLen →
      Event.exec i (fast_cmd inp (runFilt inp (origResOf inp)) i ((i : ℚ) * inp.segLen)
        (segDur inp.total inp.segLen i)) ∈ run inp) ∧
    (∀ i, i < execCount inp.total inp.segLen →
      (Event.progress (Msg.segWarn i (inp.stderrOf i)) ∈ run inp ↔ inp.exitCode i ≠ 0)) ∧
    (∀ i, i < execCount inp.total inp.segLen →
      (Event.progress (Msg.segOk i) ∈ run inp ↔ inp.exitCode i = 0)) ∧
    (∀ i st, Event.errorEv i st ∉ run inp) := by
  have hEff : effectiveMode inp = .fast := effectiveMode_fast_iff.mpr ⟨hm, hr⟩
  have hRun := run_fast inp ht hs hEff
  have hmemBlock : ∀ (e : Event),
      e ∈ ((List.range' 0 (execCount inp.total inp.segLen)).map
        (fastBlock inp (runFilt inp (origResOf inp))
          (num_segments inp.total inp.segLen))).flatten ↔
      ∃ j, j < execCount inp.total inp.segLen ∧
        e ∈ fastBlock inp (runFilt inp (origResOf inp))
          (num_segments inp.total inp.segLen) j := by
    intro e
    constructor
    · intro he
      rcases List.mem_flatten.mp he with ⟨L, hL, heL⟩
      rcases List.mem_map.mp hL with ⟨j, hj, rfl⟩
      exact ⟨j, by simpa using (List.mem_range'_1.mp hj).2, heL⟩
    · rintro ⟨j, hj, he⟩
      exact List.mem_flatten.mpr ⟨_, List.mem_map.mpr
        ⟨j, List.mem_range'_1.mpr ⟨Nat.zero_le _, by omega⟩, rfl⟩, he⟩
  have hmemRun : ∀ (e : Event), e ∈ run inp ↔
      (e ∈ headEvs inp (origResOf inp) ∨ e = Event.progress Msg.fastMode ∨
        (∃ j, j < execCount inp.total inp.segLen ∧
          e ∈ fastBlock inp (runFilt inp (origResOf inp))
            (num_segments inp.total inp.segLen) j) ∨
        e = Event.finishedEv inp.outputDir) := by
    intro e
    rw [hRun]
    simp only [List.mem_append, hmemBlock]
    constructor
    · rintro (((h | h) | h) | h)
      · exact Or.inl h
      · simp only [List.mem_singleton] at h
        exact Or.inr (Or.inl h)
      · exact Or.inr (Or.inr (Or.inl h))
      · simp only [List.mem_singleton] at h
        exact Or.inr (Or.inr (Or.inr h))
    · rintro (h | h | h | h)
      · exact Or.inl (Or.inl (Or.inl h))
      · exact Or.inl (Or.inl (Or.inr (by simp [h])))
      · exact Or.inl (Or.inr h)
      · exact Or.inr (by simp [h])
  refine ⟨?_, ?_, ?_, ?_, ?_⟩
  · rw [hRun]
    exact List.getLast?_concat _
  · intro i hi
    exact (hmemRun _).mpr (Or.inr (Or.inr (Or.inl
      ⟨i, hi, mem_fastBlock_iff.mpr (Or.inr (Or.inl rfl))⟩)))
  · intro i hi
    constructor
    · intro hw
      rcases (hmemRun _).mp hw with hh | hh | ⟨j, hj, hb⟩ | hh
      · rw [headEvs, headMsgs_original hr] at hh
        simp at hh
      · cases hh
      · rcases mem_fastBlock_iff.mp hb with hb | hb | ⟨hne, hb⟩ | ⟨_, hb⟩ | hb <;>
          simp_all
      · cases hh
    · intro hne
      exact (hmemRun _).mpr (Or.inr (Or.inr (Or.inl
        ⟨i, hi, mem_fastBlock_iff.mpr (Or.inr (Or.inr (Or.inl ⟨hne, rfl⟩)))⟩)))
  · intro i hi
    constructor
    · intro hw
      rcases (hmemRun _).mp hw with hh | hh | ⟨j, hj, hb⟩ | hh
      · rw [headEvs, headMsgs_original hr] at hh
        simp at hh
      · cases hh
      · rcases mem_fastBlock_iff.mp hb with hb | hb | ⟨hne, hb⟩ | ⟨hz, hb⟩ | hb <;>
          simp_all
      · cases hh
    · intro hz
      exact (hmemRun _).mpr (Or.inr (Or.inr (Or.inl
        ⟨i, hi, mem_fastBlock_iff.mpr (Or.inr (Or.inr (Or.inr (Or.inl ⟨hz, rfl⟩))))⟩)))
  · intro i st hw
    rcases (hmemRun _).mp hw with hh | hh | ⟨j, hj, hb⟩ | hh
    · rcases headEvs_progress _ hh with ⟨m, hm'⟩
      cases hm'
    · cases hh
    · rcases mem_fastBlock_iff.mp hb with hb | hb | ⟨_, hb⟩ | ⟨_, hb⟩ | hb <;> cases hb
    · cases hh

/-- Witness for C5: three 35-second segments of a 100-second video,
segment 1 failing — the run completes with a warning for segment 1 and a
success line for segment 0. -/
theorem C5_fast_partial_failure_witness :
    (run inpWarn).getLast? = some (Event.finishedEv "C:/in/video") ∧
    Event.progress (Msg.segWarn 1 "boom") ∈ run inpWarn ∧
    Event.progress (Msg.segOk 0) ∈ run inpWarn := by
  have hexec : execCount inpWarn.total inpWarn.segLen = 3 := by
    have : execCount (100 : ℚ) 35 = 3 := execCount_eval (by norm_num) (by norm_num) (by norm_num)
    exact this
  have h := C5_fast_partial_failure inpWarn (by norm_num [inpWarn, baseInput])
    (by norm_num [inpWarn, baseInput]) rfl rfl
    ⟨1, by rw [hexec]; omega, by simp [inpWarn, baseInput]⟩
    ⟨0, by rw [hexec]; omega, by simp [inpWarn, baseInput]⟩
  refine ⟨h.1, ?_, ?_⟩
  · have hw := (h.2.2.1 1 (by rw [hexec]; omega)).mpr (by simp [inpWarn, baseInput])
    simpa [inpWarn, baseInput] using hw
  · have hw := (h.2.2.2.1 0 (by rw [hexec]; omega)).mpr (by simp [inpWarn, baseInput])
    exact hw

/-- C6: in Precise mode, when segment `k` is the first whose tool
invocation exits non-zero, the run emits the error signal for segment
`k` as its very last event, never emits the `finished` signal, attempts
exactly the segments up to and including `k`, and no segment after `k`
is ever attempted. -/
theorem C6_precise_abort (inp : RunInput) (ht : 0 < inp.total) (hs : 0 < inp.segLen)
    (hm : inp.mode = .precise)
    (k : ℕ) (hk : k < execCount inp.total inp.segLen)
    (hfail : inp.exitCode k ≠ 0) (hfirst : ∀ j, j < k → inp.exitCode j = 0) :
    (∀ d, Event.finishedEv d ∉ run inp) ∧
    (run inp).getLast? = some (Event.errorEv k (inp.stderrOf k)) ∧
    (∀ j c, Event.exec j c ∈ run inp → j ≤ k) ∧
    (∀ j, j ≤ k →
      Event.exec j (precise_cmd inp (runFilt inp (origResOf inp)) j ((j : ℚ) * inp.segLen)
        (segDur inp.total inp.segLen j)) ∈ run inp) := by
  have hEff : effectiveMode inp = .precise := by
    simp [effectiveMode, hm]
  have hRun := run_precise_fail inp ht hs hEff k hk hfail hfirst
  have hmemBlock : ∀ (e : Event),
      e ∈ ((List.range' 0 k).map
        (preciseBlock inp (runFilt inp (origResOf inp))
          (num_segments inp.total inp.segLen))).flatten ↔
      ∃ j, j < k ∧
        e ∈ preciseBlock inp (runFilt inp (origResOf inp))
          (num_segments inp.total inp.segLen) j := by
    intro e
    constructor
    · intro he
      rcases List.mem_flatten.mp he with ⟨L, hL, heL⟩
      rcases List.mem_map.mp hL with ⟨j, hj, rfl⟩
      exact ⟨j, by simpa using (List.mem_range'_1.mp hj).2, heL⟩
    · rintro ⟨j, hj, he⟩
      exact List.mem_flatten.mpr ⟨_, List.mem_map.mpr
        ⟨j, List.mem_range'_1.mpr ⟨Nat.zero_le _, by omega⟩, rfl⟩, he⟩
  have hmemRun : ∀ (e : Event), e ∈ run inp ↔
      (e ∈ headEvs inp (origResOf inp) ∨ e = Event.progress Msg.preciseMode ∨
        (∃ j, j < k ∧
          e ∈ preciseBlock inp (runFilt inp (origResOf inp))
            (num_segments inp.total inp.segLen) j) ∨
        e ∈ preciseFailBlock inp (runFilt inp (origResOf inp)) k) := by
    intro e
    rw [hRun]
    simp only [List.mem_append, hmemBlock]
    constructor
    · rintro (((h | h) | h) | h)
      · exact Or.inl h
      · simp only [List.mem_singleton] at h
        exact Or.inr (Or.inl h)
      · exact Or.inr (Or.inr (Or.inl h))
      · exact Or.inr (Or.inr (Or.inr h))
    · rintro (h | h | h | h)
      · exact Or.inl (Or.inl (Or.inl h))
      · exact Or.inl (Or.inl (Or.inr (by simp [h])))
      · exact Or.inl (Or.inr h)
      · exact Or.inr h
  refine ⟨?_, ?_, ?_, ?_⟩
  · intro d hd
    rcases (hmemRun _).mp hd with hh | hh | ⟨j, hj, hb⟩ | hh
    · rcases headEvs_progress _ hh with ⟨m, hm'⟩
      cases hm'
    · cases hh
    · rcases mem_preciseBlock_iff.mp hb with hb | hb | hb | hb <;> cases hb
    · simp [preciseFailBlock] at hh
  · rw [hRun, List.getLast?_append]
    rfl
  · intro j c hjc
    rcases (hmemRun _).mp hjc with hh | hh | ⟨j', hj', hb⟩ | hh
    · rcases headEvs_progress _ hh with ⟨m, hm'⟩
      cases hm'
    · cases hh
    · rcases mem_preciseBlock_iff.mp hb with hb | hb | hb | hb <;>
        first
          | (cases hb; omega)
          | (cases hb)
    · simp only [preciseFailBlock, List.mem_cons, List.mem_singleton] at hh
      rcases hh with hh | hh | hh | hh <;>
        first
          | (cases hh; omega)
          | (cases hh)
          | simp at hh
  · intro j hj
    rcases Nat.lt_or_ge j k with hjk | hjk
    · exact (hmemRun _).mpr (Or.inr (Or.inr (Or.inl
        ⟨j, hjk, mem_preciseBlock_iff.mpr (Or.inr (Or.inl rfl))⟩)))
    · have hjeq : j = k := by omega
      subst hjeq
      exact (hmemRun _).mpr (Or.inr (Or.inr (Or.inr (by simp [preciseFailBlock]))))

/-- Witness for C6: three 35-second segments of a 100-second video in
precise mode, segment 1 failing — the trace ends with the error signal
for segment 1 and never reaches `finished`. -/
theorem C6_precise_abort_witness :
    (run inpAbort).getLast? = some (Event.errorEv 1 "boom") ∧
    ∀ d, Event.finishedEv d ∉ run inpAbort := by
  have hexec : execCount inpAbort.total inpAbort.segLen = 3 :=
    execCount_eval (by norm_num [inpAbort, baseInput]) (by norm_num [inpAbort, baseInput])
      (by norm_num [inpAbort, baseInput])
  have h := C6_precise_abort inpAbort (by norm_num [inpAbort, baseInput])
    (by norm_num [inpAbort, baseInput]) rfl 1 (by rw [hexec]; omega)
    (by simp [inpAbort, baseInput]) (by intro j hj; interval_cases j <;> simp [inpAbort, baseInput])
  refine ⟨?_, h.1⟩
  have := h.2.1
  simpa [inpAbort, baseInput] using this

/-- C7 counterexample: with `totalDuration = 100`, `segmentLength = 35`
(`segmentCount = 3`), the percentage the run emits after segment index 1
is `int(2/3*100) = 66`, and no event of the run carries
`round(2/3*100) = 67` — the claim's `round` formula does not describe
the emitted values. -/
theorem C7_round_counterexample :
    Event.segmentProgress 66 ∈ run baseInput ∧
    (∀ p : ℤ, Event.segmentProgress p ∈ run baseInput → p ≠ 67) ∧
    round ((((1 : ℚ) + 1) / ((num_segments baseInput.total baseInput.segLen : ℕ) : ℚ)) * 100) =
      67 := by
  have hm : execCount baseInput.total baseInput.segLen = 3 :=
    execCount_eval (by norm_num [baseInput]) (by norm_num [baseInput]) (by norm_num [baseInput])
  have hnum : num_segments baseInput.total baseInput.segLen = 3 :=
    num_segments_eval (t := (100 : ℚ)) (n := 2) (by norm_num [baseInput])
      (by norm_num [baseInput]) (by norm_num [baseInput])
  have h0 : pyPercent 0 3 = 33 := by
    rw [pyPercent_eq_floor 0 (by norm_num)]
    norm_num
  have h1 : pyPercent 1 3 = 66 := by
    rw [pyPercent_eq_floor 1 (by norm_num)]
    norm_num
  have h2 : pyPercent 2 3 = 100 := by
    rw [pyPercent_eq_floor 2 (by norm_num)]
    norm_num
  have hpct : percentEvents (run baseInput) = [33, 66, 100] := by
    rw [percentEvents_run baseInput (by norm_num [baseInput]) (by norm_num [baseInput])
      (Or.inl rfl)]
    rw [hm, hnum]
    rw [show List.range' 0 3 = [0, 1, 2] from rfl]
    simp only [List.map_cons, List.map_nil]
    rw [h0, h1, h2]
  refine ⟨?_, ?_, ?_⟩
  · rw [segmentProgress_mem_iff, hpct]
    simp
  · intro p hp
    rw [segmentProgress_mem_iff, hpct] at hp
    simp only [List.mem_cons, List.mem_singleton, List.not_mem_nil, or_false] at hp
    rcases hp with rfl | rfl | rfl <;> omega
  · rw [hnum, round_eq]
    norm_num

/-- C7 (amended): in every run — fast or precise, completed or aborted
— each completed segment emits exactly one percentage event; the `i`-th
emitted value is the *truncation* `⌊(i+1)*100 / segmentCount⌋` (Python
`int()`), not the rounding `round((i+1)/segmentCount*100)`; the emitted
percentages are monotonically non-decreasing across the run; and the
completed-segment count is every executed segment in fast mode, and
every executed segment whenever no tool invocation fails. -/
theorem C7_progress_truncated (inp : RunInput) (ht : 0 < inp.total) (hs : 0 < inp.segLen) :
    percentEvents (run inp) =
      (List.range' 0 (completedCount inp)).map
        (fun i : ℕ => ⌊(((i : ℚ) + 1) * 100) / ((num_segments inp.total inp.segLen : ℕ) : ℚ)⌋) ∧
    List.Pairwise (fun a b => a ≤ b) (percentEvents (run inp)) ∧
    (effectiveMode inp = .fast → completedCount inp = execCount inp.total inp.segLen) ∧
    ((∀ j, j < execCount inp.total inp.segLen → inp.exitCode j = 0) →
      completedCount inp = execCount inp.total inp.segLen) := by
  have hnum : 0 < num_segments inp.total inp.segLen := by
    unfold num_segments
    omega
  have key : percentEvents (run inp) =
      (List.range' 0 (completedCount inp)).map
        (fun i => pyPercent i (num_segments inp.total inp.segLen)) := by
    cases heff : effectiveMode inp with
    | fast =>
      rw [percentEvents_run inp ht hs (Or.inl heff)]
      unfold completedCount
      rw [heff]
    | precise =>
      simp only [run, runWithRes, heff]
      rw [percentEvents_append, percentEvents_append, percentEvents_append]
      rw [show headEvs inp (origResOf inp) =
        (headMsgs inp (origResOf inp)).map Event.progress from rfl]
      rw [percentEvents_map_progress, percentEvents_preciseLoop]
      unfold completedCount
      rw [heff]
      split_ifs <;> simp [percentEvents]
  refine ⟨?_, ?_, ?_, ?_⟩
  · rw [key]
    exact List.map_congr_left (fun i _ => pyPercent_eq_floor i hnum)
  · rw [key]
    exact (List.pairwise_lt_range' 0 (completedCount inp) 1).map _
      (fun a b hab => pyPercent_mono hnum hab.le)
  · intro heff
    unfold completedCount
    rw [heff]
  · intro hall
    cases heff : effectiveMode inp with
    | fast =>
      unfold completedCount
      rw [heff]
    | precise =>
      have h1 := percentEvents_run inp ht hs (Or.inr hall)
      rw [key] at h1
      have h2 := congrArg List.length h1
      simpa using h2

/-- Witness for the amended C7: the fast 100/35 run's percentages are
non-decreasing. -/
theorem C7_progress_truncated_witness :
    List.Pairwise (fun a b : ℤ => a ≤ b) (percentEvents (run baseInput)) :=
  (C7_progress_truncated baseInput (by norm_num [baseInput]) (by norm_num [baseInput])).2.1

/-- C10: in a run that never aborts, the final emitted percentage is 100
exactly when the total duration is *not* an integer multiple of the
segment length; on an exact multiple the final percentage stays strictly
below 100 (the planned-count denominator counts one slot more than is
executed). -/
theorem C10_final_percent (inp : RunInput) (ht : 0 < inp.total) (hs : 0 < inp.segLen)
    (hc : effectiveMode inp = .fast ∨
      ∀ j, j < execCount inp.total inp.segLen → inp.exitCode j = 0) :
    ∃ p : ℤ, (percentEvents (run inp)).getLast? = some p ∧
      (p = 100 ↔ ¬ ∃ k : ℕ, inp.total = (k : ℚ) * inp.segLen) := by
  have hm1 : 0 < execCount inp.total inp.segLen := execCount_pos ht hs
  obtain ⟨n, hn⟩ : ∃ n, execCount inp.total inp.segLen = n + 1 :=
    ⟨execCount inp.total inp.segLen - 1, by omega⟩
  rw [percentEvents_run inp ht hs hc]
  refine ⟨pyPercent n (num_segments inp.total inp.segLen), ?_, ?_⟩
  · rw [hn, List.range'_concat, List.map_append]
    simp
  · by_cases hex : ∃ k : ℕ, inp.total = (k : ℚ) * inp.segLen
    · obtain ⟨k, hkeq⟩ := hex
      have hk1 : 1 ≤ k := by
        rcases Nat.eq_zero_or_pos k with rfl | h
        · rw [hkeq] at ht
          norm_num at ht
        · exact h
      have hmk : execCount inp.total inp.segLen = k := by
        rw [hkeq, execCount_natmul hs]
      have hnumk : num_segments inp.total inp.segLen = k + 1 := by
        rw [hkeq, num_segments_natmul hs]
      have hlt : pyPercent n (num_segments inp.total inp.segLen) < 100 := by
        apply pyPercent_lt_100
        omega
      exact iff_of_false (by omega) (fun hcon => hcon ⟨k, hkeq⟩)
    · have h0 : (0 : ℤ) ≤ ⌊inp.total / inp.segLen⌋ := Int.floor_nonneg.mpr (by positivity)
      have hceil : ⌈inp.total / inp.segLen⌉ = ⌊inp.total / inp.segLen⌋ + 1 := by
        rcases eq_or_lt_of_le (Int.floor_le (inp.total / inp.segLen)) with heq | hlt
        · exfalso
          apply hex
          refine ⟨(⌊inp.total / inp.segLen⌋).toNat, ?_⟩
          have hcast : (((⌊inp.total / inp.segLen⌋).toNat : ℕ) : ℚ) =
              ((⌊inp.total / inp.segLen⌋ : ℤ) : ℚ) := by
            exact_mod_cast Int.toNat_of_nonneg h0
          rw [hcast, heq]
          field_simp
        · have h1 : ⌊inp.total / inp.segLen⌋ < ⌈inp.total / inp.segLen⌉ := by
            rw [Int.lt_ceil]
            exact hlt
          have h2 := Int.ceil_le_floor_add_one (inp.total / inp.segLen)
          omega
      have hmnum : execCount inp.total inp.segLen = num_segments inp.total inp.segLen := by
        unfold execCount num_segments
        rw [hceil]
        omega
      have hp100 : pyPercent n (num_segments inp.total inp.segLen) = 100 := by
        have hn' : n = num_segments inp.total inp.segLen - 1 := by omega
        rw [hn']
        exact pyPercent_last (by omega)
      exact iff_of_true hp100 hex

/-- Witness for C10 at the exact multiple 120 = 2·60: the last emitted
percentage is not 100. -/
theorem C10_final_percent_witness :
    ∃ p : ℤ, (percentEvents (run inpExact)).getLast? = some p ∧ p ≠ 100 := by
  obtain ⟨p, hp, hiff⟩ := C10_final_percent inpExact (by norm_num [inpExact, baseInput])
    (by norm_num [inpExact, baseInput]) (Or.inl rfl)
  refine ⟨p, hp, fun h => ?_⟩
  exact (hiff.mp h) ⟨2, by norm_num [inpExact, baseInput]⟩

/-- C8: every tool invocation of a precise-mode run seeks accurately to
`i * segmentLength`, limits output to the segment duration, maps one
video and one audio stream, re-encodes with libx264 CRF 23 preset medium
and AAC at 192 kbps, sets the faststart flag, and writes
`{basename}_{index:03d}.mp4` regardless of the source extension; a
fast-mode run instead stream-copies and writes
`{basename}_{index:03d}{ext}` with the source extension. -/
theorem C8_command_shape (inp : RunInput) (i : ℕ) (c : List Arg)
    (hc : Event.exec i c ∈ run inp) :
    (effectiveMode inp = .precise →
      c = precise_cmd inp (runFilt inp (origResOf inp)) i ((i : ℚ) * inp.segLen)
          (segDur inp.total inp.segLen i) ∧
      (∃ l r, c = l ++ [Arg.lit "-ss", Arg.num ((i : ℚ) * inp.segLen)] ++ r) ∧
      (∃ l r, c = l ++ [Arg.lit "-t", Arg.num (segDur inp.total inp.segLen i)] ++ r) ∧
      (∃ l r, c = l ++ [Arg.lit "-c:v", Arg.lit "libx264", Arg.lit "-c:a", Arg.lit "aac",
        Arg.lit "-preset", Arg.lit "medium", Arg.lit "-crf", Arg.lit "23",
        Arg.lit "-b:a", Arg.lit "192k", Arg.lit "-map", Arg.lit "0:v",
        Arg.lit "-map", Arg.lit "0:a", Arg.lit "-movflags", Arg.lit "+faststart"] ++ r) ∧
      Arg.lit "-accurate_seek" ∈ c ∧
      c.getLast? = some (Arg.lit (joinPath inp.outputDir
        (inp.filename ++ "_" ++ pad3 i ++ ".mp4")))) ∧
    (effectiveMode inp = .fast →
      c = fast_cmd inp (runFilt inp (origResOf inp)) i ((i : ℚ) * inp.segLen)
          (segDur inp.total inp.segLen i) ∧
      (∃ l r, c = l ++ [Arg.lit "-c", Arg.lit "copy"] ++ r) ∧
      Arg.lit "-accurate_seek" ∈ c ∧
      c.getLast? = some (Arg.lit (joinPath inp.outputDir
        (inp.filename ++ "_" ++ pad3 i ++ inp.ext)))) := by
  unfold run runWithRes at hc
  constructor
  · intro heff
    rw [heff] at hc
    simp only [List.mem_append, List.mem_singleton] at hc
    have hcmd : c = precise_cmd inp (runFilt inp (origResOf inp)) i ((i : ℚ) * inp.segLen)
        (segDur inp.total inp.segLen i) := by
      rcases hc with ((hh | hh) | hh) | hh
      · rcases headEvs_progress _ hh with ⟨m, hm⟩
        cases hm
      · simp at hh
      · exact preciseLoop_exec _ 0 i c hh
      · split_ifs at hh <;> simp at hh
    subst hcmd
    refine ⟨rfl, ?_, ?_, ?_, ?_, ?_⟩
    · exact ⟨[Arg.lit (inp.ffmpegPath ++ "ffmpeg"), Arg.lit "-accurate_seek"],
        [Arg.lit "-i", Arg.lit inp.inputPath, Arg.lit "-t",
         Arg.num (segDur inp.total inp.segLen i), Arg.lit "-c:v", Arg.lit "libx264",
         Arg.lit "-c:a", Arg.lit "aac", Arg.lit "-preset", Arg.lit "medium",
         Arg.lit "-crf", Arg.lit "23", Arg.lit "-b:a", Arg.lit "192k",
         Arg.lit "-map", Arg.lit "0:v", Arg.lit "-map", Arg.lit "0:a",
         Arg.lit "-movflags", Arg.lit "+faststart"] ++
          runFilt inp (origResOf inp) ++
          [Arg.lit (joinPath inp.outputDir (inp.filename ++ "_" ++ pad3 i ++ ".mp4"))],
        rfl⟩
    · exact ⟨[Arg.lit (inp.ffmpegPath ++ "ffmpeg"), Arg.lit "-accurate_seek",
         Arg.lit "-ss", Arg.num ((i : ℚ) * inp.segLen), Arg.lit "-i", Arg.lit inp.inputPath],
        [Arg.lit "-c:v", Arg.lit "libx264", Arg.lit "-c:a", Arg.lit "aac",
         Arg.lit "-preset", Arg.lit "medium", Arg.lit "-crf", Arg.lit "23",
         Arg.lit "-b:a", Arg.lit "192k", Arg.lit "-map", Arg.lit "0:v",
         Arg.lit "-map", Arg.lit "0:a", Arg.lit "-movflags", Arg.lit "+faststart"] ++
          runFilt inp (origResOf inp) ++
          [Arg.lit (joinPath inp.outputDir (inp.filename ++ "_" ++ pad3 i ++ ".mp4"))],
        rfl⟩
    · exact ⟨[Arg.lit (inp.ffmpegPath ++ "ffmpeg"), Arg.lit "-accurate_seek",
         Arg.lit "-ss", Arg.num ((i : ℚ) * inp.segLen), Arg.lit "-i", Arg.lit inp.inputPath,
         Arg.lit "-t", Arg.num (segDur inp.total inp.segLen i)],
        runFilt inp (origResOf inp) ++
          [Arg.lit (joinPath inp.outputDir (inp.filename ++ "_" ++ pad3 i ++ ".mp4"))],
        rfl⟩
    · unfold precise_cmd
      simp
    · unfold precise_cmd
      exact List.getLast?_concat _
  · intro heff
    rw [heff] at hc
    simp only [List.mem_append, List.mem_singleton] at hc
    have hcmd : c = fast_cmd inp (runFilt inp (origResOf inp)) i ((i : ℚ) * inp.segLen)
        (segDur inp.total inp.segLen i) := by
      rcases hc with ((hh | hh) | hh) | hh
      · rcases headEvs_progress _ hh with ⟨m, hm⟩
        cases hm
      · simp at hh
      · exact fastLoop_exec _ 0 i c hh
      · cases hh
    subst hcmd
    refine ⟨rfl, ?_, ?_, ?_⟩
    · exact ⟨[Arg.lit (inp.ffmpegPath ++ "ffmpeg"), Arg.lit "-accurate_seek",
         Arg.lit "-ss", Arg.num ((i : ℚ) * inp.segLen), Arg.lit "-i", Arg.lit inp.inputPath,
         Arg.lit "-t", Arg.num (segDur inp.total inp.segLen i)],
        [Arg.lit "-map", Arg.lit "0:v", Arg.lit "-map", Arg.lit "0:a"] ++
          runFilt inp (origResOf inp) ++
          [Arg.lit (joinPath inp.outputDir (inp.filename ++ "_" ++ pad3 i ++ inp.ext))],
        rfl⟩
    · unfold fast_cmd
      simp
    · unfold fast_cmd
      exact List.getLast?_concat _

/-- Witness for C8: the single-segment precise run executes exactly the
re-encode command, whose output file is `video_000.mp4` (the `.mov`
source extension is not kept). -/
theorem C8_command_shape_witness :
    (Event.exec 0 (precise_cmd inpPrecise (runFilt inpPrecise (origResOf inpPrecise)) 0
        ((0 : ℚ) * inpPrecise.segLen) (segDur inpPrecise.total inpPrecise.segLen 0)) ∈
      run inpPrecise) ∧
    (precise_cmd inpPrecise (runFilt inpPrecise (origResOf inpPrecise)) 0
        ((0 : ℚ) * inpPrecise.segLen) (segDur inpPrecise.total inpPrecise.segLen 0)).getLast? =
      some (Arg.lit (joinPath "C:/in/video" ("video_" ++ pad3 0 ++ ".mp4"))) := by
  have hEff : effectiveMode inpPrecise = .precise := rfl
  have hm : execCount inpPrecise.total inpPrecise.segLen = 1 :=
    execCount_eval (by norm_num [inpPrecise, baseInput]) (by norm_num [inpPrecise, baseInput])
      (by norm_num [inpPrecise, baseInput])
  have hmem : Event.exec 0 (precise_cmd inpPrecise (runFilt inpPrecise (origResOf inpPrecise)) 0
      ((0 : ℚ) * inpPrecise.segLen) (segDur inpPrecise.total inpPrecise.segLen 0)) ∈
      run inpPrecise := by
    rw [run_precise_ok inpPrecise (by norm_num [inpPrecise, baseInput])
      (by norm_num [inpPrecise, baseInput]) hEff (fun j _ => rfl)]
    rw [hm, show List.range' 0 1 = [0] from rfl]
    simp only [List.map_cons, List.map_nil, List.flatten_cons, List.flatten_nil,
      List.append_nil, List.mem_append]
    refine Or.inl (Or.inr ?_)
    exact mem_preciseBlock_iff.mpr (Or.inr (Or.inl rfl))
  have h := (C8_command_shape inpPrecise 0 _ hmem).1 hEff
  exact ⟨hmem, h.2.2.2.2.2⟩

/-! ### The probe outcome influences the run only through the
resolution string -/

lemma fastLoop_probe_irrel (inp : RunInput) (b : Bool) (s : String) (filt : List Arg)
    (num : ℕ) : ∀ fuel i,
      fastLoop { inp with resProbeOk := b, resProbeOut := s } filt num i fuel =
        fastLoop inp filt num i fuel := by
  intro fuel
  induction fuel with
  | zero => intro i; rfl
  | succ n ih =>
    intro i
    simp only [fastLoop]
    rw [ih]
    rfl

lemma preciseLoop_probe_irrel (inp : RunInput) (b : Bool) (s : String) (filt : List Arg)
    (num : ℕ) : ∀ fuel i,
      preciseLoop { inp with resProbeOk := b, resProbeOut := s } filt num i fuel =
        preciseLoop inp filt num i fuel := by
  intro fuel
  induction fuel with
  | zero => intro i; rfl
  | succ n ih =>
    intro i
    simp only [preciseLoop]
    rw [ih]
    rfl

lemma runWithRes_probe_irrel (inp : RunInput) (b : Bool) (s : String) (o : String) :
    runWithRes { inp with resProbeOk := b, resProbeOut := s } o = runWithRes inp o := by
  unfold runWithRes
  simp only [fastLoop_probe_irrel, preciseLoop_probe_irrel]
  rfl

/-- On a failed resolution probe the whole run proceeds exactly as it
would had the probe succeeded with output `1920x1080`. -/
lemma run_probe_fallback (inp : RunInput) (h : inp.resProbeOk = false) :
    run inp = run { inp with resProbeOk := true, resProbeOut := "1920x1080" } := by
  unfold run
  have h1 : origResOf inp = "1920x1080" := by
    unfold origResOf
    rw [h]
    rfl
  have h2 : origResOf { inp with resProbeOk := true, resProbeOut := "1920x1080" } =
      "1920x1080" := by
    unfold origResOf
    simp only [if_pos]
    decide
  rw [h1, h2, runWithRes_probe_irrel inp true "1920x1080" "1920x1080"]

/-- No message emitted before the segment loop is a per-segment message
or a mode banner. -/
lemma mem_headMsgs_not_seg {inp : RunInput} {o : String} {m : Msg} (hm : m ∈ headMsgs inp o) :
    (∀ i st, m ≠ Msg.segWarn i st) ∧ (∀ i, m ≠ Msg.segOk i) ∧
    (∀ i s d, m ≠ Msg.creating i s d) := by
  unfold headMsgs targetMsgs scaleMsgs at hm
  rcases htr : targetResOf inp o with _ | ⟨w, h⟩ <;> rw [htr] at hm <;>
    split_ifs at hm <;> simp at hm <;> aesop

/-- C9 counterexample: at the concrete failed-probe run, the fallback
1920×1080 is used (the 9:16 geometry notice shows 607×1080) and the run
completes — but the whole event trace is *identical* to the run whose
probe genuinely returned `1920x1080`, and contains no warning and no
error event: nothing surfaces the fallback to the caller, refuting the
claim's "surfaced ... as a warning rather than being silently
swallowed". -/
theorem C9_fallback_warning_counterexample :
    origResOf inpProbeFail = "1920x1080" ∧
    run inpProbeFail = run inpProbeOk ∧
    Event.progress (Msg.targetRes 607 1080) ∈ run inpProbeFail ∧
    Event.finishedEv "C:/in/video" ∈ run inpProbeFail ∧
    (∀ i st, Event.progress (Msg.segWarn i st) ∉ run inpProbeFail) ∧
    (∀ i st, Event.errorEv i st ∉ run inpProbeFail) := by
  have hEff : effectiveMode inpProbeFail = .precise := rfl
  have hm : execCount inpProbeFail.total inpProbeFail.segLen = 1 :=
    execCount_eval (by norm_num [inpProbeFail, baseInput])
      (by norm_num [inpProbeFail, baseInput]) (by norm_num [inpProbeFail, baseInput])
  have hRun := run_precise_ok inpProbeFail (by norm_num [inpProbeFail, baseInput])
    (by norm_num [inpProbeFail, baseInput]) hEff (fun j _ => rfl)
  rw [hm, show List.range' 0 1 = [0] from rfl] at hRun
  simp only [List.map_cons, List.map_nil, List.flatten_cons, List.flatten_nil,
    List.append_nil] at hRun
  refine ⟨rfl, run_probe_fallback inpProbeFail rfl, ?_, ?_, ?_, ?_⟩
  · rw [hRun]
    refine List.mem_append_left _ (List.mem_append_left _ (List.mem_append_left _ ?_))
    refine List.mem_map.mpr ⟨Msg.targetRes 607 1080, ?_, rfl⟩
    have : targetResOf inpProbeFail (origResOf inpProbeFail) = some (607, 1080) := by
      show calculate_target_resolution "1920x1080" "9:16" = some (607, 1080)
      have hp : parseRes "1920x1080" = some (1920, 1080) := by decide
      unfold calculate_target_resolution
      rw [if_neg (by decide), hp]
      unfold calcTargetFromDims
      simp only [Option.getD_some, String.reduceEq, reduceIte]
      norm_num [pyInt]
    unfold headMsgs targetMsgs
    rw [this]
    simp
  · rw [hRun]
    simp only [List.mem_append, List.mem_singleton]
    exact Or.inr rfl
  · intro i st hmem
    rw [hRun] at hmem
    simp only [List.mem_append, List.mem_singleton] at hmem
    rcases hmem with ((hh | hh) | hh) | hh
    · rcases List.mem_map.mp hh with ⟨m, hmm, hme⟩
      cases hme
      exact (mem_headMsgs_not_seg hmm).1 i st rfl
    · simp at hh
    · rcases mem_preciseBlock_iff.mp hh with hh | hh | hh | hh <;> simp at hh
    · simp at hh
  · intro i st hmem
    rw [hRun] at hmem
    simp only [List.mem_append, List.mem_singleton] at hmem
    rcases hmem with ((hh | hh) | hh) | hh
    · rcases List.mem_map.mp hh with ⟨m, hmm, hme⟩
      cases hme
    · simp at hh
    · rcases mem_preciseBlock_iff.mp hh with hh | hh | hh | hh <;> simp at hh
    · simp at hh

/-- C9 (amended): when the resolution probe fails, the run does not
fail — it silently falls back to `1920x1080`: the event trace equals,
event for event, the trace of the same run whose probe succeeded with
output `1920x1080`, so no warning distinguishable by the caller is ever
emitted about the fallback. -/
theorem C9_fallback_silent (inp : RunInput) (h : inp.resProbeOk = false) :
    origResOf inp = "1920x1080" ∧
    run inp = run { inp with resProbeOk := true, resProbeOut := "1920x1080" } := by
  refine ⟨?_, run_probe_fallback inp h⟩
  unfold origResOf
  rw [h]
  rfl

/-- Witness for the amended C9 at the concrete failed-probe run. -/
theorem C9_fallback_silent_witness :
    origResOf inpProbeFail = "1920x1080" ∧
    run inpProbeFail =
      run { inpProbeFail with resProbeOk := true, resProbeOut := "1920x1080" } :=
  C9_fallback_silent inpProbeFail rfl

end VideoSplitter
